import Mathlib

/-!
# Verification of the smart-hybrid-scheduler suggestion engine

Shallow embedding of the availability/suggestion engine of
`backend/handler/app.py` (the interval algebra `merge_intervals`,
`subtract_intervals`, `clamp_to_range`, the candidate generator
`step_candidates_in_interval`, the ranker `rank_candidates`, and the
post-materialization part of `handle_suggest`).

Modelling conventions:
* `datetime` instants are modelled as integers (seconds on the UTC
  timeline); `timedelta`s are integer numbers of seconds.  The API
  boundary exchanges second-precision ISO-8601 strings, so
  `now.replace(microsecond=0)` is the identity at this granularity.
* Python interval tuples `(start, end)` become `Int × Int`.
* Python `sorted(..., key=...)` is a stable sort; it is embedded as a
  stable insertion sort (`sortBy`) — extensionally equal to any stable
  sort by the same key.
* Python `float` scores are idealised as exact rationals (`ℚ`);
  the literal `0.05` is the rational `1/20`.
-/

namespace Scheduler

/-- Stable insertion of `x` into `l`: `x` is placed before the first
element `y` with `lt y x = false`, so elements whose key equals `x`'s
and that were inserted later stay behind `x`.  Together with `sortBy`
this reproduces the stable behaviour of Python's `sorted`. -/
def insertBy (lt : α → α → Bool) (x : α) : List α → List α
  | [] => [x]
  | y :: ys => if lt y x then y :: insertBy lt x ys else x :: y :: ys

/-- Stable sort by the strict comparison `lt` (model of Python `sorted`). -/
def sortBy (lt : α → α → Bool) (l : List α) : List α :=
  l.foldr (insertBy lt) []

/-- `sorted(intervals, key=lambda x: x[0])`: stable sort by start. -/
def sortByStart (l : List (Int × Int)) : List (Int × Int) :=
  sortBy (fun a b => decide (a.1 < b.1)) l

/-- The loop of `merge_intervals`: the accumulator is the last element
`merged[-1]` of the Python list (the only one the loop ever updates);
intervals the loop can no longer touch are emitted. -/
def mergeLoop : (Int × Int) → List (Int × Int) → List (Int × Int)
  | acc, [] => [acc]
  | acc, (s, e) :: rest =>
      if s ≤ acc.2 then mergeLoop (acc.1, max acc.2 e) rest
      else acc :: mergeLoop (s, e) rest

/-- `merge_intervals`: sort by start, then coalesce touching or
overlapping intervals.  (`if not intervals: return []` coincides with
the `[]` branch of the match.) -/
def merge_intervals (intervals : List (Int × Int)) : List (Int × Int) :=
  match sortByStart intervals with
  | [] => []
  | x :: xs => mergeLoop x xs

/-- Inner loop of `subtract_intervals` for one base interval `[cur, e)`
walking the (already merged) blocks.  `cur` is Python's `cur_start`;
reaching `cur_start >= e` breaks out of the loop, and the trailing
`if cur_start < e` emits the leftover. -/
def subLoop (cur e : Int) : List (Int × Int) → List (Int × Int)
  | [] => if cur < e then [(cur, e)] else []
  | (bs, be) :: rest =>
      if be ≤ cur ∨ bs ≥ e then subLoop cur e rest
      else
        (if bs > cur then [(cur, bs)] else []) ++
          (if max cur be ≥ e then [] else subLoop (max cur be) e rest)

/-- `subtract_intervals`: merge the blocks, walk them against every base
interval in input order, and drop non-positive results.
(`if not base: return []` coincides with `flatMap` over `[]`.) -/
def subtract_intervals (base blocks : List (Int × Int)) : List (Int × Int) :=
  let bl := merge_intervals blocks
  (base.foldr (fun p acc => subLoop p.1 p.2 bl ++ acc) []).filter
    (fun iv => decide (iv.1 < iv.2))

/-- `clamp_to_range`: clip each interval to `[start, end)`, keeping only
non-empty results, in input order. -/
def clamp_to_range (intervals : List (Int × Int)) (start «end» : Int) :
    List (Int × Int) :=
  intervals.filterMap (fun p =>
    if max p.1 start < min p.2 «end» then some (max p.1 start, min p.2 «end»)
    else none)

/-- `events_to_intervals`, with the per-event ISO parsing modelled away:
the input is the list of already-parsed `(start, end)` pairs (an event
whose timestamps fail to parse never reaches this filter). -/
def events_to_intervals (events : List (Int × Int)) : List (Int × Int) :=
  merge_intervals (events.filter (fun p => decide (p.1 < p.2)))

/-- The `while` loop of `step_candidates_in_interval`, with the
remaining capacity (`12 - len(out)`) as fuel: the Python loop appends,
then breaks once `len(out) >= 12`. -/
def stepLoop (e dur step : Int) : Int → Nat → List (Int × Int)
  | _, 0 => []
  | cursor, Nat.succ k =>
      if cursor + dur ≤ e then
        (cursor, cursor + dur) :: stepLoop e dur step (cursor + step) k
      else []

/-- `step_candidates_in_interval`: fixed-step candidates of length `dur`
inside `[s, e)`, capped at 12. -/
def step_candidates_in_interval (s e dur step : Int) : List (Int × Int) :=
  stepLoop e dur step s 12

/-- The sort key of `rank_candidates`: `key=lambda x: (-x[1], x[0][0])`,
as a strict lexicographic comparison. -/
def rankLT (a b : (Int × Int) × ℚ × List String) : Bool :=
  decide (b.2.1 < a.2.1 ∨ (a.2.1 = b.2.1 ∧ a.1.1 < b.1.1))

/-- Scoring of one candidate in `rank_candidates`.  `now` is
`datetime.now(timezone.utc)` (the code reads the clock once per
candidate; the model takes the instant as a parameter).  The time-decay
divisor is 30 days of seconds; `tiny` is 15 minutes = 900 s. -/
def score_candidate (free : List (Int × Int)) (now : Int) (cand : Int × Int) :
    (Int × Int) × ℚ × List String :=
  let host := free.find? (fun f => decide (cand.1 ≥ f.1 ∧ cand.2 ≤ f.2))
  let base : ℚ := 1 - ((cand.1 - now : Int) : ℚ) / (60 * 60 * 24 * 30)
  match host with
  | none => (cand, base, [])
  | some host =>
      let leftTiny : Prop := 0 < cand.1 - host.1 ∧ cand.1 - host.1 < 900
      let rightTiny : Prop := 0 < host.2 - cand.2 ∧ host.2 - cand.2 < 900
      (cand,
        base - (if leftTiny then (1 : ℚ) / 20 else 0) -
          (if rightTiny then (1 : ℚ) / 20 else 0),
        (if leftTiny then ["avoided tiny left gap penalty"] else []) ++
          (if rightTiny then ["avoided tiny right gap penalty"] else []))

/-- `rank_candidates`: score every candidate, then stable-sort by
`(-score, start)`. -/
def rank_candidates (candidates free : List (Int × Int)) (now : Int) :
    List ((Int × Int) × ℚ × List String) :=
  sortBy rankLT (candidates.map (score_candidate free now))

/-- The clamping of the requested range start in `handle_suggest`:
`if range_start < now_utc: range_start = now_utc.replace(microsecond=0)`
(microsecond truncation is the identity at second granularity). -/
def clamped_start (range_start now : Int) : Int :=
  if range_start < now then now else range_start

/-- Availability ∖ busy, exactly as computed inside `handle_suggest`. -/
def free_of (weekly events : List (Int × Int)) (range_start range_end : Int) :
    List (Int × Int) :=
  subtract_intervals
    (clamp_to_range (merge_intervals weekly) range_start range_end)
    (events_to_intervals events)

/-- The candidate pool of `handle_suggest`: 30-minute (1800 s) steps in
every free interval, concatenated in free-interval order. -/
def candidates_of (free : List (Int × Int)) (durationMin : Int) :
    List (Int × Int) :=
  free.foldr
    (fun f acc => step_candidates_in_interval f.1 f.2 (durationMin * 60) 1800 ++ acc)
    []

/-- Successful response body of `handle_suggest` (`suggestions` plus the
optional explanatory `note`; ISO serialisation and score rounding of the
response are not modelled). -/
structure SuggestOk where
  suggestions : List ((Int × Int) × ℚ × List String)
  note : Option String
deriving DecidableEq

instance : DecidableEq (Except String SuggestOk) := fun x y =>
  match x, y with
  | .error a, .error b =>
      if h : a = b then .isTrue (by rw [h])
      else .isFalse (by intro hc; cases hc; exact h rfl)
  | .ok a, .ok b =>
      if h : a = b then .isTrue (by rw [h])
      else .isFalse (by intro hc; cases hc; exact h rfl)
  | .error _, .ok _ => .isFalse (by intro hc; cases hc)
  | .ok _, .error _ => .isFalse (by intro hc; cases hc)

/-- The post-materialization part of `handle_suggest`.  The availability
materializer (`local_day_windows_to_utc` over IANA timezone data) is
outside the embedding: `weekly` stands for the concatenated per-day UTC
intervals it produced, and `events` for the parsed stored events.
`BadRequest` raised by `ensure` becomes `Except.error`. -/
def handle_suggest (durationMin fromTs toTs now : Int)
    (weekly events : List (Int × Int)) : Except String SuggestOk :=
  if ¬(5 ≤ durationMin ∧ durationMin ≤ 480) then
    .error "durationMin (5..480) required"
  else
    let range_start := clamped_start fromTs now
    if ¬(toTs > range_start) then .error "toISO must be after fromISO"
    else
      let free := free_of weekly events range_start toTs
      if free = [] then
        .ok ⟨[], some "No free intervals in the requested range."⟩
      else
        let candidates := candidates_of free durationMin
        if candidates = [] then
          .ok ⟨[], some "No slots of the requested duration."⟩
        else
          .ok ⟨(rank_candidates candidates free now).take 4, none⟩

/-! ## Generic facts about the stable sort -/

theorem insertBy_perm (lt : α → α → Bool) (x : α) (l : List α) :
    List.Perm (insertBy lt x l) (x :: l) := by
  induction l with
  | nil => simp [insertBy]
  | cons y ys ih =>
    simp only [insertBy]
    split
    · exact (ih.cons y).trans (List.Perm.swap x y ys)
    · exact List.Perm.refl _

theorem sortBy_perm (lt : α → α → Bool) (l : List α) :
    List.Perm (sortBy lt l) l := by
  induction l with
  | nil => exact List.Perm.refl _
  | cons x xs ih =>
    simpa only [sortBy, List.foldr_cons] using
      (insertBy_perm lt x (sortBy lt xs)).trans (ih.cons x)

theorem insertBy_pairwise (lt : α → α → Bool)
    (hasym : ∀ a b, lt a b = true → lt b a = true → False)
    (htrans : ∀ a b c, lt b a = false → lt c b = false → lt c a = false)
    (x : α) (l : List α) (hl : l.Pairwise (fun a b => lt b a = false)) :
    (insertBy lt x l).Pairwise (fun a b => lt b a = false) := by
  induction l with
  | nil => simp [insertBy]
  | cons y ys ih =>
    rcases hl with _ | ⟨hy, hys⟩
    simp only [insertBy]
    split
    · next hyx =>
      refine List.Pairwise.cons ?_ (ih hys)
      intro z hz
      rcases List.mem_cons.1 (((insertBy_perm lt x ys).mem_iff).1 hz) with rfl | hz'
      · exact Bool.eq_false_iff.2 (fun hxy => hasym y z hyx hxy)
      · exact hy z hz'
    · next hyx =>
      have hyx' : lt y x = false := Bool.eq_false_iff.2 hyx
      exact List.Pairwise.cons
        (fun z hz => by
          rcases List.mem_cons.1 hz with rfl | hz'
          · exact hyx'
          · exact htrans x y z hyx' (hy z hz'))
        (List.Pairwise.cons hy hys)

theorem sortBy_pairwise (lt : α → α → Bool)
    (hasym : ∀ a b, lt a b = true → lt b a = true → False)
    (htrans : ∀ a b c, lt b a = false → lt c b = false → lt c a = false)
    (l : List α) :
    (sortBy lt l).Pairwise (fun a b => lt b a = false) := by
  induction l with
  | nil => simp [sortBy]
  | cons x xs ih =>
    simpa only [sortBy, List.foldr_cons] using
      insertBy_pairwise lt hasym htrans x (sortBy lt xs) ih

theorem sortByStart_pairwise (l : List (Int × Int)) :
    (sortByStart l).Pairwise (fun a b => a.1 ≤ b.1) := by
  have h := sortBy_pairwise (fun a b : Int × Int => decide (a.1 < b.1))
    (fun a b h1 h2 => by simp at h1 h2; omega)
    (fun a b c h1 h2 => by simp at h1 h2 ⊢; omega) l
  exact h.imp (fun h => by simpa using h)

/-! ## Facts about `merge_intervals` -/

theorem mergeLoop_start_ge (acc : Int × Int) (l : List (Int × Int))
    (hsort : l.Pairwise (fun a b => a.1 ≤ b.1))
    (hge : ∀ i ∈ l, acc.1 ≤ i.1) :
    ∀ m ∈ mergeLoop acc l, acc.1 ≤ m.1 := by
  induction l generalizing acc with
  | nil => simp [mergeLoop]
  | cons p rest ih =>
    rcases hsort with _ | ⟨hp, hrest⟩
    simp only [mergeLoop]
    split
    · intro m hm
      exact ih (acc.1, max acc.2 p.2) hrest
        (fun i hi => hge i (List.mem_cons_of_mem p hi)) m hm
    · intro m hm
      rcases List.mem_cons.1 hm with rfl | hm'
      · exact le_refl _
      · exact le_trans (hge p (List.mem_cons_self p rest)) (ih p hrest hp m hm')

theorem mergeLoop_pairwise (acc : Int × Int) (l : List (Int × Int))
    (hsort : l.Pairwise (fun a b => a.1 ≤ b.1))
    (hge : ∀ i ∈ l, acc.1 ≤ i.1) :
    (mergeLoop acc l).Pairwise (fun a b => a.1 ≤ b.1 ∧ a.2 < b.1) := by
  induction l generalizing acc with
  | nil => simp [mergeLoop]
  | cons p rest ih =>
    rcases hsort with _ | ⟨hp, hrest⟩
    simp only [mergeLoop]
    split
    · exact ih (acc.1, max acc.2 p.2) hrest
        (fun i hi => hge i (List.mem_cons_of_mem p hi))
    · next hgap =>
      refine List.Pairwise.cons ?_ (ih p hrest hp)
      intro m hm
      have h1 : p.1 ≤ m.1 := mergeLoop_start_ge p rest hrest hp m hm
      exact ⟨le_trans (hge p (List.mem_cons_self p rest)) h1,
        lt_of_lt_of_le (by omega) h1⟩

/-- Every output interval of `merge_intervals` starts no earlier than its
predecessor and strictly after its predecessor ends. -/
theorem merge_pairwise (l : List (Int × Int)) :
    (merge_intervals l).Pairwise (fun a b => a.1 ≤ b.1 ∧ a.2 < b.1) := by
  unfold merge_intervals
  split
  · exact List.Pairwise.nil
  · next x xs heq =>
    have h := sortByStart_pairwise l
    rw [heq] at h
    rcases h with _ | ⟨hx, hxs⟩
    exact mergeLoop_pairwise x xs hxs hx

/-- Every input interval of `mergeLoop` (including the accumulator) is
absorbed into a single output interval that contains its whole span. -/
theorem mergeLoop_cover : ∀ (l : List (Int × Int)) (acc : Int × Int),
    l.Pairwise (fun a b => a.1 ≤ b.1) → (∀ i ∈ l, acc.1 ≤ i.1) →
    ∀ x ∈ acc :: l, ∃ m ∈ mergeLoop acc l, m.1 ≤ x.1 ∧ x.2 ≤ m.2 := by
  intro l
  induction l with
  | nil =>
    intro acc _ _ x hx
    rcases List.mem_cons.1 hx with rfl | hx'
    · exact ⟨x, by simp [mergeLoop]⟩
    · simp at hx'
  | cons p rest ih =>
    intro acc hsort hge x hx
    rcases hsort with _ | ⟨hp, hrest⟩
    simp only [mergeLoop]
    split
    · next hcoal =>
      have ih' := ih (acc.1, max acc.2 p.2) hrest
        (fun i hi => hge i (List.mem_cons_of_mem p hi))
      rcases List.mem_cons.1 hx with rfl | hx'
      · obtain ⟨m, hm, h1, h2⟩ := ih' (x.1, max x.2 p.2)
          (List.mem_cons_self _ rest)
        exact ⟨m, hm, h1, le_trans (le_max_left _ _) h2⟩
      · rcases List.mem_cons.1 hx' with rfl | hx''
        · obtain ⟨m, hm, h1, h2⟩ := ih' (acc.1, max acc.2 x.2)
            (List.mem_cons_self _ rest)
          exact ⟨m, hm, le_trans h1 (hge x (List.mem_cons_self x rest)),
            le_trans (le_max_right _ _) h2⟩
        · exact ih' x (List.mem_cons_of_mem _ hx'')
    · next hgap =>
      rcases List.mem_cons.1 hx with rfl | hx'
      · exact ⟨x, List.mem_cons_self _ _, le_refl _, le_refl _⟩
      · obtain ⟨m, hm, h1, h2⟩ := ih p hrest hp x hx'
        exact ⟨m, List.mem_cons_of_mem acc hm, h1, h2⟩

/-- Every input interval of `merge_intervals` lies inside a single output
interval. -/
theorem merge_cover (l : List (Int × Int)) :
    ∀ x ∈ l, ∃ m ∈ merge_intervals l, m.1 ≤ x.1 ∧ x.2 ≤ m.2 := by
  intro x hx
  have hx' : x ∈ sortByStart l :=
    ((sortBy_perm _ l).mem_iff).2 hx
  unfold merge_intervals
  split
  · next heq => rw [heq] at hx'; simp at hx'
  · next y ys heq =>
    have h := sortByStart_pairwise l
    rw [heq] at h hx'
    rcases h with _ | ⟨hy, hys⟩
    exact mergeLoop_cover ys y hys hy x hx'

theorem mergeLoop_pos (acc : Int × Int) (l : List (Int × Int))
    (hacc : acc.1 < acc.2) (hl : ∀ i ∈ l, i.1 < i.2) :
    ∀ m ∈ mergeLoop acc l, m.1 < m.2 := by
  induction l generalizing acc with
  | nil => simpa [mergeLoop] using hacc
  | cons p rest ih =>
    simp only [mergeLoop]
    split
    · exact ih (acc.1, max acc.2 p.2) (by simp; omega)
        (fun i hi => hl i (List.mem_cons_of_mem p hi))
    · intro m hm
      rcases List.mem_cons.1 hm with rfl | hm'
      · exact hacc
      · exact ih p (hl p (List.mem_cons_self p rest))
          (fun i hi => hl i (List.mem_cons_of_mem p hi)) m hm'

theorem merge_pos (l : List (Int × Int)) (hl : ∀ i ∈ l, i.1 < i.2) :
    ∀ m ∈ merge_intervals l, m.1 < m.2 := by
  have hl' : ∀ i ∈ sortByStart l, i.1 < i.2 :=
    fun i hi => hl i (((sortBy_perm _ l).mem_iff).1 hi)
  unfold merge_intervals
  split
  · simp
  · next x xs heq =>
    rw [heq] at hl'
    exact mergeLoop_pos x xs (hl' x (List.mem_cons_self x xs))
      (fun i hi => hl' i (List.mem_cons_of_mem x hi))

/-! ## Facts about `subtract_intervals` -/

theorem mem_foldr_append {α β : Type} (f : α → List β) (l : List α) (x : β) :
    x ∈ l.foldr (fun p acc => f p ++ acc) [] ↔ ∃ p ∈ l, x ∈ f p := by
  induction l with
  | nil => simp
  | cons a t ih => simp [ih]

theorem foldr_append_eq_nil {α β : Type} (f : α → List β) (l : List α)
    (h : ∀ p ∈ l, f p = []) : l.foldr (fun p acc => f p ++ acc) [] = [] := by
  induction l with
  | nil => rfl
  | cons a t ih =>
    simp only [List.foldr_cons, h a (List.mem_cons_self a t), List.nil_append]
    exact ih (fun p hp => h p (List.mem_cons_of_mem a hp))

/-- Every interval emitted by `subLoop` stays inside `[cur, e)` and is
disjoint from every block in the (sorted-by-start) block list. -/
theorem subLoop_sound : ∀ (bl : List (Int × Int)) (cur e : Int),
    bl.Pairwise (fun a b => a.1 ≤ b.1) →
    ∀ iv ∈ subLoop cur e bl,
      (cur ≤ iv.1 ∧ iv.2 ≤ e) ∧ ∀ b ∈ bl, b.2 ≤ iv.1 ∨ iv.2 ≤ b.1 := by
  intro bl
  induction bl with
  | nil =>
    intro cur e _ iv hiv
    simp only [subLoop] at hiv
    split at hiv
    · rcases List.mem_singleton.1 hiv with rfl
      exact ⟨⟨le_refl _, le_refl _⟩, by simp⟩
    · simp at hiv
  | cons b rest ih =>
    intro cur e hsort iv hiv
    rcases hsort with _ | ⟨hb, hrest⟩
    obtain ⟨bs, be⟩ := b
    simp only [subLoop] at hiv
    split at hiv
    · next hskip =>
      have h := ih cur e hrest iv hiv
      refine ⟨h.1, ?_⟩
      intro b' hb'
      rcases List.mem_cons.1 hb' with rfl | hmem
      · rcases hskip with h1 | h2
        · exact Or.inl (le_trans h1 h.1.1)
        · exact Or.inr (le_trans h.1.2 h2)
      · exact h.2 b' hmem
    · next hover =>
      push_neg at hover
      rcases List.mem_append.1 hiv with hgap | hrec
      · split at hgap
        · next hbs =>
          rcases List.mem_singleton.1 hgap with rfl
          refine ⟨⟨le_refl _, by omega⟩, ?_⟩
          intro b' hb'
          rcases List.mem_cons.1 hb' with rfl | hmem
          · exact Or.inr (le_refl _)
          · exact Or.inr (hb b' hmem)
        · simp at hgap
      · split at hrec
        · simp at hrec
        · next hbreak =>
          have h := ih (max cur be) e hrest iv hrec
          refine ⟨⟨le_trans (le_max_left _ _) h.1.1, h.1.2⟩, ?_⟩
          intro b' hb'
          rcases List.mem_cons.1 hb' with rfl | hmem
          · exact Or.inl (le_trans (le_max_right _ _) h.1.1)
          · exact h.2 b' hmem

/-- A base interval that is already exhausted emits nothing. -/
theorem subLoop_of_ge : ∀ (bl : List (Int × Int)) (cur e : Int),
    e ≤ cur → subLoop cur e bl = [] := by
  intro bl
  induction bl with
  | nil =>
    intro cur e h
    simp only [subLoop, if_neg (by omega : ¬ cur < e)]
  | cons b rest ih =>
    intro cur e h
    obtain ⟨bs, be⟩ := b
    simp only [subLoop]
    split
    · exact ih cur e h
    · next hover =>
      push_neg at hover
      rw [if_neg (by omega : ¬ bs > cur),
        if_pos (by omega : max cur be ≥ e)]
      rfl

/-- A base interval wholly inside one block of a canonically merged block
list emits nothing. -/
theorem subLoop_covered : ∀ (bl : List (Int × Int)) (cur e : Int)
    (m : Int × Int),
    bl.Pairwise (fun a b => a.1 ≤ b.1 ∧ a.2 < b.1) → m ∈ bl →
    m.1 ≤ cur → cur < e → e ≤ m.2 → subLoop cur e bl = [] := by
  intro bl
  induction bl with
  | nil => intro cur e m _ hm; simp at hm
  | cons b rest ih =>
    intro cur e m hsort hm h1 h2 h3
    rcases hsort with _ | ⟨hb, hrest⟩
    obtain ⟨bs, be⟩ := b
    simp only [subLoop]
    rcases List.mem_cons.1 hm with rfl | hmem
    · simp only at h1 h3
      rw [if_neg (by omega : ¬(be ≤ cur ∨ bs ≥ e))]
      rw [if_neg (by omega : ¬ bs > cur), if_pos (by omega : max cur be ≥ e)]
      rfl
    · have hskip : be ≤ cur := by
        have := hb m hmem
        omega
      rw [if_pos (Or.inl hskip)]
      exact ih cur e m hrest hmem h1 h2 h3

/-! ## Claim theorems on the interval algebra -/

/-- C1.  Subtract soundness: no time point inside an interval returned by
`subtract_intervals base blocks` is covered by any interval of `blocks`. -/
theorem subtract_disjoint_blocks (base blocks : List (Int × Int))
    (iv b : Int × Int) (hiv : iv ∈ subtract_intervals base blocks)
    (hb : b ∈ blocks) :
    ∀ t : Int, ¬(iv.1 ≤ t ∧ t < iv.2 ∧ b.1 ≤ t ∧ t < b.2) := by
  intro t ht
  obtain ⟨m, hm, hm1, hm2⟩ := merge_cover blocks b hb
  simp only [subtract_intervals] at hiv
  have hiv' := (List.mem_filter.1 hiv).1
  obtain ⟨p, hp, hmem⟩ := (mem_foldr_append _ base iv).1 hiv'
  have h := subLoop_sound (merge_intervals blocks) p.1 p.2
    ((merge_pairwise blocks).imp (fun h => h.1)) iv hmem
  rcases h.2 m hm with h1 | h2 <;> omega

theorem subtract_disjoint_blocks_witness :
    ((0 : Int), 5) ∈ subtract_intervals [((0 : Int), 10)] [((5 : Int), 7)] ∧
    ((5 : Int), 7) ∈ [((5 : Int), 7)] ∧
    ¬((0 : Int) ≤ 4 ∧ (4 : Int) < 5 ∧ (5 : Int) ≤ 4 ∧ (4 : Int) < 7) :=
  ⟨by decide, by decide,
    subtract_disjoint_blocks [((0 : Int), 10)] [((5 : Int), 7)]
      ((0 : Int), 5) ((5 : Int), 7) (by decide) (by decide) 4⟩

/-- C2 counterexample: `Subtract(base, []) == Merge(base)` fails for the
base list `[(0,2),(1,3)]` — subtract leaves the overlapping pair intact
while merge coalesces it. -/
theorem subtract_empty_ne_merge :
    subtract_intervals [((0 : Int), 2), (1, 3)] [] ≠
      merge_intervals [((0 : Int), 2), (1, 3)] := by decide

/-- C2 amended.  `Subtract(base, [])` equals `base` with non-positive
intervals removed, in input order (it equals `Merge(base)` only when
`base` is already in merged form); `Subtract(base, base) == []` holds for
every `base`. -/
theorem subtract_identities_amended :
    (∀ base : List (Int × Int),
      subtract_intervals base [] =
        base.filter (fun iv => decide (iv.1 < iv.2))) ∧
    (∀ base : List (Int × Int), subtract_intervals base base = []) := by
  constructor
  · intro base
    simp only [subtract_intervals]
    have hnil : merge_intervals ([] : List (Int × Int)) = [] := rfl
    rw [hnil]
    induction base with
    | nil => rfl
    | cons p t ih =>
      simp only [List.foldr_cons, List.filter_append, List.filter_cons]
      rw [← ih]
      by_cases h : p.1 < p.2
      · simp [subLoop, h]
      · simp [subLoop, h]
  · intro base
    simp only [subtract_intervals]
    rw [foldr_append_eq_nil]
    · rfl
    intro p hp
    rcases le_or_lt p.2 p.1 with hle | hlt
    · exact subLoop_of_ge _ p.1 p.2 hle
    · obtain ⟨m, hm, hm1, hm2⟩ := merge_cover base p hp
      exact subLoop_covered _ p.1 p.2 m (merge_pairwise base) hm hm1 hlt hm2

/-- C3 counterexample: `merge_intervals` does not discard zero/negative
length intervals — the degenerate input `(5,3)` survives in its output. -/
theorem merge_keeps_nonpositive :
    ((5 : Int), 3) ∈ merge_intervals [((5 : Int), 3)] ∧ (3 : Int) ≤ 5 := by
  decide

/-- C3 amended.  `subtract_intervals` and `clamp_to_range` discard all
zero/negative-length intervals on every input; `merge_intervals` outputs
only positive intervals provided every input interval is positive (it
does not itself discard non-positive inputs). -/
theorem algebra_positivity_amended :
    (∀ (l : List (Int × Int)) (lo hi : Int), ∀ iv ∈ clamp_to_range l lo hi,
        iv.1 < iv.2) ∧
    (∀ base blocks : List (Int × Int), ∀ iv ∈ subtract_intervals base blocks,
        iv.1 < iv.2) ∧
    (∀ l : List (Int × Int), (∀ i ∈ l, i.1 < i.2) →
        ∀ m ∈ merge_intervals l, m.1 < m.2) := by
  refine ⟨?_, ?_, merge_pos⟩
  · intro l lo hi iv hiv
    obtain ⟨p, _, heq⟩ := List.mem_filterMap.1 hiv
    split at heq
    · next h => cases heq; exact h
    · cases heq
  · intro base blocks iv hiv
    simpa using (List.mem_filter.1 hiv).2

theorem algebra_positivity_amended_witness :
    (((5 : Int), 10) ∈ clamp_to_range [((0 : Int), 30)] 5 10 ∧ (5 : Int) < 10) ∧
    (((0 : Int), 5) ∈ subtract_intervals [((0 : Int), 10)] [((5 : Int), 10)] ∧
      (0 : Int) < 5) ∧
    ((∀ i ∈ [((1 : Int), 2)], i.1 < i.2) ∧
      ((1 : Int), 2) ∈ merge_intervals [((1 : Int), 2)] ∧ (1 : Int) < 2) :=
  ⟨⟨by decide, algebra_positivity_amended.1 [((0 : Int), 30)] 5 10
      ((5 : Int), 10) (by decide)⟩,
   ⟨by decide, algebra_positivity_amended.2.1 [((0 : Int), 10)] [((5 : Int), 10)]
      ((0 : Int), 5) (by decide)⟩,
   ⟨by decide, by decide,
    algebra_positivity_amended.2.2 [((1 : Int), 2)] (by decide)
      ((1 : Int), 2) (by decide)⟩⟩

/-- C5.  Merge canonical output: the output of `merge_intervals` is sorted
by start ascending and every pair of output intervals has the later one
starting strictly after the earlier one ends (non-overlapping,
non-adjacent). -/
theorem merge_canonical (l : List (Int × Int)) :
    (merge_intervals l).Pairwise (fun a b => a.1 ≤ b.1 ∧ a.2 < b.1) :=
  merge_pairwise l

theorem subtract_mem_base (base blocks : List (Int × Int))
    (iv : Int × Int) (hiv : iv ∈ subtract_intervals base blocks) :
    ∃ b ∈ base, b.1 ≤ iv.1 ∧ iv.2 ≤ b.2 := by
  simp only [subtract_intervals] at hiv
  have hiv' := (List.mem_filter.1 hiv).1
  obtain ⟨p, hp, hmem⟩ := (mem_foldr_append _ base iv).1 hiv'
  have h := subLoop_sound (merge_intervals blocks) p.1 p.2
    ((merge_pairwise blocks).imp (fun h => h.1)) iv hmem
  exact ⟨p, hp, h.1.1, h.1.2⟩

/-- C10.  Subtract never invents time: every interval returned by
`subtract_intervals base blocks` lies inside a single interval of `base`. -/
theorem subtract_within_base (base blocks : List (Int × Int))
    (iv : Int × Int) (hiv : iv ∈ subtract_intervals base blocks) :
    ∃ b ∈ base, b.1 ≤ iv.1 ∧ iv.2 ≤ b.2 :=
  subtract_mem_base base blocks iv hiv

theorem subtract_within_base_witness :
    ((3 : Int), 5) ∈ subtract_intervals [((0 : Int), 5)] [((0 : Int), 3)] ∧
    ∃ b ∈ [((0 : Int), 5)], b.1 ≤ (3 : Int) ∧ (5 : Int) ≤ b.2 :=
  ⟨by decide,
    subtract_within_base [((0 : Int), 5)] [((0 : Int), 3)] ((3 : Int), 5)
      (by decide)⟩

/-! ## Candidate generation -/

theorem stepLoop_spec (e dur st : Int) : ∀ (n : Nat) (c : Int),
    ∃ k : Nat, k ≤ n ∧
      stepLoop e dur st c n =
        (List.range k).map
          (fun i : Nat => (c + (i : Int) * st, c + (i : Int) * st + dur)) ∧
      (∀ i : Nat, i < k → c + (i : Int) * st + dur ≤ e) ∧
      (k < n → ¬(c + (k : Int) * st + dur ≤ e)) := by
  intro n
  induction n with
  | zero => exact fun c => ⟨0, le_refl _, rfl, by omega, by omega⟩
  | succ m ih =>
    intro c
    by_cases hc : c + dur ≤ e
    · obtain ⟨k', hk', heq, hfit, hstop⟩ := ih (c + st)
      refine ⟨k' + 1, by omega, ?_, ?_, ?_⟩
      · rw [List.range_succ_eq_map, List.map_cons, List.map_map]
        simp only [stepLoop, if_pos hc, heq]
        congr 1
        · simp
        · refine List.map_congr_left ?_
          intro i _
          simp only [Function.comp_apply, Prod.mk.injEq]
          constructor <;> (push_cast; ring)
      · intro i hi
        cases i with
        | zero => simpa using hc
        | succ j =>
          have h := hfit j (by omega)
          have : c + ((j + 1 : Nat) : Int) * st + dur =
              c + st + (j : Int) * st + dur := by push_cast; ring
          rw [this]
          exact h
      · intro hlt
        have h := hstop (by omega)
        have : c + ((k' + 1 : Nat) : Int) * st + dur =
            c + st + (k' : Int) * st + dur := by push_cast; ring
        rw [this]
        exact h
    · exact ⟨0, by omega, by simp [stepLoop, hc], by omega,
        fun _ => by simpa using hc⟩

/-- C6.  `step_candidates_in_interval` emits at most 12 candidates, at
`s + k*step` for consecutive `k = 0, 1, …`, each of length exactly `dur`
and each fitting (`start + dur ≤ e`); below the 12-candidate cap it stops
exactly when the next candidate would no longer fit. -/
theorem step_candidates_spec (s e dur st : Int) :
    ∃ k : Nat, k ≤ 12 ∧
      step_candidates_in_interval s e dur st =
        (List.range k).map
          (fun i : Nat => (s + (i : Int) * st, s + (i : Int) * st + dur)) ∧
      (∀ i : Nat, i < k → s + (i : Int) * st + dur ≤ e) ∧
      (k < 12 → ¬(s + (k : Int) * st + dur ≤ e)) :=
  stepLoop_spec e dur st 12 s

/-! ## Ranking -/

theorem score_candidate_fst (free : List (Int × Int)) (now : Int)
    (cand : Int × Int) : (score_candidate free now cand).1 = cand := by
  simp only [score_candidate]
  split <;> rfl

theorem rankLT_asym (a b : (Int × Int) × ℚ × List String) :
    rankLT a b = true → rankLT b a = true → False := by
  simp only [rankLT, decide_eq_true_eq]
  intro h1 h2
  rcases h1 with h1 | ⟨h1a, h1b⟩ <;> rcases h2 with h2 | ⟨h2a, h2b⟩
  · exact absurd (lt_trans h1 h2) (lt_irrefl _)
  · rw [h2a] at h1; exact absurd h1 (lt_irrefl _)
  · rw [h1a] at h2; exact absurd h2 (lt_irrefl _)
  · omega

theorem rankLT_negtrans (a b c : (Int × Int) × ℚ × List String) :
    rankLT b a = false → rankLT c b = false → rankLT c a = false := by
  simp only [rankLT, decide_eq_false_iff_not]
  intro h1 h2
  push_neg at h1 h2 ⊢
  obtain ⟨h1s, h1t⟩ := h1
  obtain ⟨h2s, h2t⟩ := h2
  constructor
  · exact le_trans h2s h1s
  · intro heq
    have hba : b.2.1 = a.2.1 := le_antisymm h1s (heq ▸ h2s)
    have hcb : c.2.1 = b.2.1 := le_antisymm h2s (hba ▸ heq.ge)
    have := h1t hba
    have := h2t hcb
    omega

/-- C7.  Rank output shape: `rank_candidates` returns exactly the input
candidates (a permutation under the candidate projection — nothing
dropped, nothing duplicated), ordered by score descending with ties
broken by earlier candidate start. -/
theorem rank_shape (candidates free : List (Int × Int)) (now : Int) :
    List.Perm ((rank_candidates candidates free now).map (fun t => t.1))
      candidates ∧
    (rank_candidates candidates free now).Pairwise
      (fun a b => b.2.1 < a.2.1 ∨ (a.2.1 = b.2.1 ∧ a.1.1 ≤ b.1.1)) := by
  constructor
  · have hperm := (sortBy_perm rankLT
      (candidates.map (score_candidate free now))).map (fun t => t.1)
    have hmap : (candidates.map (score_candidate free now)).map (fun t => t.1)
        = candidates := by
      rw [List.map_map]
      have hcomp : ((fun t : (Int × Int) × ℚ × List String => t.1) ∘
          score_candidate free now) = id := by
        funext c
        exact score_candidate_fst free now c
      rw [hcomp, List.map_id]
    rw [hmap] at hperm
    exact hperm
  · have h := sortBy_pairwise rankLT rankLT_asym rankLT_negtrans
      (candidates.map (score_candidate free now))
    refine h.imp ?_
    intro a b hab
    simp only [rankLT, decide_eq_false_iff_not] at hab
    push_neg at hab
    obtain ⟨hs, ht⟩ := hab
    rcases lt_or_eq_of_le hs with hlt | heq
    · exact Or.inl hlt
    · exact Or.inr ⟨heq.symm, not_lt.1 (fun hlt => absurd (ht heq) (by omega))⟩

/-! ## Order-insensitivity of `merge_intervals` on positive intervals -/

theorem mergeLoop_cons (acc p : Int × Int) (l : List (Int × Int)) :
    mergeLoop acc (p :: l) =
      if p.1 ≤ acc.2 then mergeLoop (acc.1, max acc.2 p.2) l
      else acc :: mergeLoop p l := by
  obtain ⟨s, e⟩ := p
  rfl

/-- Swapping two adjacent positive intervals with equal starts does not
change the result of the merge loop. -/
theorem mergeLoop_tie_swap (acc x y : Int × Int) (l : List (Int × Int))
    (hxy : x.1 = y.1) (hx : x.1 < x.2) (hy : y.1 < y.2) :
    mergeLoop acc (x :: y :: l) = mergeLoop acc (y :: x :: l) := by
  rw [mergeLoop_cons, mergeLoop_cons acc y (x :: l)]
  by_cases h : x.1 ≤ acc.2
  · rw [if_pos h, if_pos (by omega : y.1 ≤ acc.2)]
    rw [mergeLoop_cons, mergeLoop_cons]
    rw [if_pos (by simp; omega : y.1 ≤ (acc.1, max acc.2 x.2).2),
      if_pos (by simp; omega : x.1 ≤ (acc.1, max acc.2 y.2).2)]
    have : max (max acc.2 x.2) y.2 = max (max acc.2 y.2) x.2 := by omega
    rw [this]
  · rw [if_neg h, if_neg (by omega : ¬ y.1 ≤ acc.2)]
    rw [mergeLoop_cons, mergeLoop_cons]
    rw [if_pos (by omega : y.1 ≤ x.2), if_pos (by omega : x.1 ≤ y.2)]
    have : (x.1, max x.2 y.2) = (y.1, max y.2 x.2) := by
      rw [hxy, max_comm]
    rw [this]

theorem perm_cons_erase_mem {α : Type} [BEq α] [LawfulBEq α] {a : α} :
    ∀ {l : List α}, a ∈ l → List.Perm l (a :: l.erase a) := by
  intro l
  induction l with
  | nil => intro h; cases h
  | cons b t ih =>
    intro h
    by_cases hb : b = a
    · subst hb
      rw [List.erase_cons_head]
    · rw [List.erase_cons_tail (by simp [hb])]
      have h' : a ∈ t :=
        (List.mem_cons.1 h).resolve_left (fun he => hb he.symm)
      exact ((ih h').cons b).trans (List.Perm.swap a b _)

/-- In a sorted list of positive intervals, a minimal-start element can be
moved to the front without changing the result of the merge loop. -/
theorem mergeLoop_select : ∀ (l : List (Int × Int)) (acc x : Int × Int),
    l.Pairwise (fun a b => a.1 ≤ b.1) → (∀ i ∈ l, i.1 < i.2) →
    x ∈ l → (∀ i ∈ l, x.1 ≤ i.1) →
    mergeLoop acc l = mergeLoop acc (x :: l.erase x) := by
  intro l
  induction l with
  | nil => intro acc x _ _ hx _; simp at hx
  | cons h t ih =>
    intro acc x hsort hpos hx hmin
    by_cases hxh : x = h
    · subst hxh
      rw [List.erase_cons_head]
    · have hx' : x ∈ t := (List.mem_cons.1 hx).resolve_left hxh
      rcases hsort with _ | ⟨hh, ht⟩
      have hstart : h.1 = x.1 :=
        le_antisymm (hh x hx') (hmin h (List.mem_cons_self h t))
      rw [List.erase_cons_tail]
      swap
      · simp [Ne.symm hxh]
      rw [mergeLoop_tie_swap acc x h (t.erase x) hstart.symm
          (hpos x hx) (hpos h (List.mem_cons_self h t))]
      rw [mergeLoop_cons, mergeLoop_cons acc h (x :: t.erase x)]
      by_cases hcond : h.1 ≤ acc.2
      · rw [if_pos hcond, if_pos hcond]
        exact ih (acc.1, max acc.2 h.2) x ht
          (fun i hi => hpos i (List.mem_cons_of_mem h hi)) hx'
          (fun i hi => hmin i (List.mem_cons_of_mem h hi))
      · rw [if_neg hcond, if_neg hcond]
        rw [ih h x ht (fun i hi => hpos i (List.mem_cons_of_mem h hi))
          hx' (fun i hi => hmin i (List.mem_cons_of_mem h hi))]

/-- Two sorted-by-start permutations of the same positive intervals give
identical merge-loop results. -/
theorem mergeLoop_perm_eq : ∀ (l₂ l₁ : List (Int × Int)) (acc : Int × Int),
    List.Perm l₁ l₂ →
    l₁.Pairwise (fun a b => a.1 ≤ b.1) →
    l₂.Pairwise (fun a b => a.1 ≤ b.1) →
    (∀ i ∈ l₁, i.1 < i.2) →
    mergeLoop acc l₁ = mergeLoop acc l₂ := by
  intro l₂
  induction l₂ with
  | nil =>
    intro l₁ acc hperm _ _ _
    rw [hperm.eq_nil]
  | cons y t₂ ih =>
    intro l₁ acc hperm hs1 hs2 hpos
    have hy : y ∈ l₁ := hperm.mem_iff.2 (List.mem_cons_self y t₂)
    rcases hs2 with _ | ⟨hyt, ht₂⟩
    have hmin : ∀ i ∈ l₁, y.1 ≤ i.1 := by
      intro i hi
      rcases List.mem_cons.1 (hperm.mem_iff.1 hi) with rfl | hmem
      · exact le_refl _
      · exact hyt i hmem
    rw [mergeLoop_select l₁ acc y hs1 hpos hy hmin]
    have hperm' : List.Perm (l₁.erase y) t₂ :=
      (((perm_cons_erase_mem hy).symm.trans hperm)).cons_inv
    have hsub : (l₁.erase y).Pairwise (fun a b => a.1 ≤ b.1) :=
      List.Pairwise.sublist (List.erase_sublist y l₁) hs1
    have hpos' : ∀ i ∈ l₁.erase y, i.1 < i.2 :=
      fun i hi => hpos i (List.mem_of_mem_erase hi)
    rw [mergeLoop_cons, mergeLoop_cons acc y t₂]
    by_cases hcond : y.1 ≤ acc.2
    · rw [if_pos hcond, if_pos hcond]
      exact ih _ _ hperm' hsub ht₂ hpos'
    · rw [if_neg hcond, if_neg hcond]
      rw [ih _ _ hperm' hsub ht₂ hpos']

/-- Merge is insensitive to input order when every interval is positive. -/
theorem merge_perm_invariant (l l' : List (Int × Int))
    (hperm : List.Perm l l') (hpos : ∀ i ∈ l, i.1 < i.2) :
    merge_intervals l' = merge_intervals l := by
  have hs : List.Perm (sortByStart l) (sortByStart l') :=
    ((sortBy_perm _ l).trans hperm).trans (sortBy_perm _ l').symm
  have hp1 := sortByStart_pairwise l
  have hp2 := sortByStart_pairwise l'
  have hpos1 : ∀ i ∈ sortByStart l, i.1 < i.2 :=
    fun i hi => hpos i ((sortBy_perm _ l).mem_iff.1 hi)
  have hpos2 : ∀ i ∈ sortByStart l', i.1 < i.2 :=
    fun i hi => hpos i (hperm.mem_iff.2 ((sortBy_perm _ l').mem_iff.1 hi))
  rcases h1 : sortByStart l with _ | ⟨x, xs⟩ <;>
    rcases h2 : sortByStart l' with _ | ⟨y, ys⟩ <;>
    simp only [merge_intervals, h1, h2]
  · rw [h1, h2] at hs
    exact absurd hs.symm.eq_nil (by simp)
  · rw [h1, h2] at hs
    exact absurd hs.eq_nil (by simp)
  · rw [h1] at hs hp1 hpos1
    rw [h2] at hs hp2 hpos2
    rcases hp1 with _ | ⟨hxxs, hxs⟩
    rcases hp2 with _ | ⟨hyys, hys⟩
    by_cases hxy : x = y
    · subst hxy
      exact mergeLoop_perm_eq xs ys x hs.symm.cons_inv hys hxs
        (fun i hi => hpos2 i (List.mem_cons_of_mem x hi))
    · have hxys : x ∈ ys :=
        (List.mem_cons.1 (hs.mem_iff.1 (List.mem_cons_self x xs))).resolve_left hxy
      have hyxs : y ∈ xs :=
        (List.mem_cons.1 (hs.symm.mem_iff.1 (List.mem_cons_self y ys))).resolve_left
          (Ne.symm hxy)
      have hstart : x.1 = y.1 := le_antisymm (hxxs y hyxs) (hyys x hxys)
      have hxpos : x.1 < x.2 := hpos1 x (List.mem_cons_self x xs)
      have hypos : y.1 < y.2 := hpos2 y (List.mem_cons_self y ys)
      rw [mergeLoop_select ys y x hys
        (fun i hi => hpos2 i (List.mem_cons_of_mem y hi)) hxys
        (fun i hi => hstart ▸ hyys i hi)]
      rw [mergeLoop_select xs x y hxs
        (fun i hi => hpos1 i (List.mem_cons_of_mem x hi)) hyxs
        (fun i hi => hstart.symm ▸ hxxs i hi)]
      rw [mergeLoop_cons, mergeLoop_cons]
      rw [if_pos (by omega : x.1 ≤ y.2), if_pos (by omega : y.1 ≤ x.2)]
      have hacc : (y.1, max y.2 x.2) = (x.1, max x.2 y.2) := by
        rw [hstart, max_comm]
      rw [hacc]
      have hperm2 : List.Perm (ys.erase x) (xs.erase y) := by
        have c1 : List.Perm (x :: xs) (x :: y :: xs.erase y) :=
          (perm_cons_erase_mem hyxs).cons x
        have c2 : List.Perm (y :: ys) (y :: x :: ys.erase x) :=
          (perm_cons_erase_mem hxys).cons y
        have chain : List.Perm (x :: y :: xs.erase y) (x :: y :: ys.erase x) :=
          ((c1.symm.trans hs).trans c2).trans (List.Perm.swap x y _)
        exact (chain.cons_inv.cons_inv).symm
      exact mergeLoop_perm_eq (xs.erase y) (ys.erase x) (x.1, max x.2 y.2)
        hperm2
        (List.Pairwise.sublist (List.erase_sublist x ys) hys)
        (List.Pairwise.sublist (List.erase_sublist y xs) hxs)
        (fun i hi => hpos2 i (List.mem_cons_of_mem y (List.mem_of_mem_erase hi)))

/-! ## Claim C4: order sensitivity -/

/-- C4 counterexample: neither `merge_intervals` nor `clamp_to_range` is
invariant under permutation of its input list.  For merge the two inputs
are permutations of each other containing a negative-length interval;
for clamp any reordering reorders the output. -/
theorem order_sensitivity_cex :
    merge_intervals [((2 : Int), 1), (2, 10)] ≠
      merge_intervals [((2 : Int), 10), (2, 1)] ∧
    clamp_to_range [((0 : Int), 1), (2, 3)] 0 10 ≠
      clamp_to_range [((2 : Int), 3), (0, 1)] 0 10 :=
  ⟨by decide, by decide⟩

/-- C4 amended.  Merge is insensitive to input order provided every input
interval has `end > start`, and Subtract is insensitive to the order of
its blocks under the same proviso; Clamp processes its input elementwise
in order, so a permuted input yields the correspondingly permuted output
(equal as multisets, not necessarily as lists). -/
theorem order_insensitivity_amended :
    (∀ l l' : List (Int × Int), List.Perm l l' → (∀ i ∈ l, i.1 < i.2) →
      merge_intervals l' = merge_intervals l) ∧
    (∀ base b b' : List (Int × Int), List.Perm b b' → (∀ i ∈ b, i.1 < i.2) →
      subtract_intervals base b' = subtract_intervals base b) ∧
    (∀ (l l' : List (Int × Int)) (lo hi : Int), List.Perm l l' →
      List.Perm (clamp_to_range l' lo hi) (clamp_to_range l lo hi)) := by
  refine ⟨merge_perm_invariant, ?_, ?_⟩
  · intro base b b' hperm hpos
    simp only [subtract_intervals]
    rw [merge_perm_invariant b b' hperm hpos]
  · intro l l' lo hi hperm
    exact hperm.symm.filterMap _

theorem order_insensitivity_amended_witness :
    (List.Perm [((1 : Int), 2), (3, 4)] [((3 : Int), 4), (1, 2)] ∧
      (∀ i ∈ [((1 : Int), 2), (3, 4)], i.1 < i.2) ∧
      merge_intervals [((3 : Int), 4), (1, 2)] =
        merge_intervals [((1 : Int), 2), (3, 4)]) ∧
    subtract_intervals [((0 : Int), 10)] [((3 : Int), 4), (1, 2)] =
      subtract_intervals [((0 : Int), 10)] [((1 : Int), 2), (3, 4)] ∧
    List.Perm (clamp_to_range [((3 : Int), 4), (1, 2)] 0 10)
      (clamp_to_range [((1 : Int), 2), (3, 4)] 0 10) :=
  ⟨⟨by decide, by decide,
    order_insensitivity_amended.1 [((1 : Int), 2), (3, 4)]
      [((3 : Int), 4), (1, 2)] (by decide) (by decide)⟩,
   order_insensitivity_amended.2.1 [((0 : Int), 10)] [((1 : Int), 2), (3, 4)]
     [((3 : Int), 4), (1, 2)] (by decide) (by decide),
   order_insensitivity_amended.2.2 [((1 : Int), 2), (3, 4)]
     [((3 : Int), 4), (1, 2)] 0 10 (by decide)⟩

/-! ## The suggest pipeline (C8, C9) -/

theorem clamped_start_eq_max (a b : Int) : clamped_start a b = max a b := by
  unfold clamped_start
  split <;> omega

theorem clamp_mem_bounds (l : List (Int × Int)) (lo hi : Int) :
    ∀ iv ∈ clamp_to_range l lo hi, lo ≤ iv.1 ∧ iv.2 ≤ hi := by
  intro iv hiv
  obtain ⟨p, _, heq⟩ := List.mem_filterMap.1 hiv
  split at heq
  · cases heq
    constructor
    · exact le_max_right _ _
    · exact min_le_right _ _
  · cases heq

/-- Every ranked entry projects to one of the input candidates. -/
theorem rank_mem_candidates (candidates free : List (Int × Int)) (now : Int) :
    ∀ sug ∈ rank_candidates candidates free now, sug.1 ∈ candidates := by
  intro sug hsug
  have h1 : sug ∈ candidates.map (score_candidate free now) :=
    (sortBy_perm rankLT _).mem_iff.1 hsug
  obtain ⟨c, hc, heq⟩ := List.mem_map.1 h1
  have : sug.1 = c := by rw [← heq, score_candidate_fst]
  rw [this]
  exact hc

/-- Every candidate generated inside a free interval starts no earlier
than that interval (the pipeline's step, 1800 s, is non-negative). -/
theorem candidates_of_start_ge (free : List (Int × Int)) (dm : Int) :
    ∀ c ∈ candidates_of free dm, ∃ f ∈ free, f.1 ≤ c.1 := by
  intro c hc
  obtain ⟨f, hf, hmem⟩ := (mem_foldr_append _ free c).1 hc
  refine ⟨f, hf, ?_⟩
  obtain ⟨k, _, heq, _, _⟩ := stepLoop_spec f.2 (dm * 60) 1800 12 f.1
  simp only [step_candidates_in_interval] at hmem
  rw [heq] at hmem
  obtain ⟨i, _, hival⟩ := List.mem_map.1 hmem
  have : c.1 = f.1 + (i : Int) * 1800 := by rw [← hival]
  have hge : 0 ≤ (i : Int) * 1800 := by positivity
  omega

/-- C8.  Past clamping: the effective range start of `handle_suggest` is
`max(requestedStart, now)`; a range that is empty or inverted after the
clamp is rejected with a validation error; and no returned suggestion
starts before `now`. -/
theorem suggest_past_clamping :
    (∀ fromTs now : Int, clamped_start fromTs now = max fromTs now) ∧
    (∀ (durationMin fromTs toTs now : Int) (weekly events : List (Int × Int)),
      5 ≤ durationMin → durationMin ≤ 480 → toTs ≤ max fromTs now →
      handle_suggest durationMin fromTs toTs now weekly events =
        .error "toISO must be after fromISO") ∧
    (∀ (durationMin fromTs toTs now : Int) (weekly events : List (Int × Int))
        (r : SuggestOk) (sug : (Int × Int) × ℚ × List String),
      handle_suggest durationMin fromTs toTs now weekly events = .ok r →
      sug ∈ r.suggestions → now ≤ sug.1.1) := by
  refine ⟨clamped_start_eq_max, ?_, ?_⟩
  · intro dm f t n w ev h1 h2 h3
    simp only [handle_suggest, clamped_start_eq_max]
    rw [if_neg (not_not_intro ⟨h1, h2⟩), if_pos (by omega : ¬ t > max f n)]
  · intro dm f t n w ev r sug hok hsug
    simp only [handle_suggest] at hok
    split at hok
    · cases hok
    · split at hok
      · cases hok
      · split at hok
        · cases hok
          simp at hsug
        · split at hok
          · cases hok
            simp at hsug
          · cases hok
            have hsug' : sug ∈ rank_candidates
                (candidates_of (free_of w ev (clamped_start f n) t) dm)
                (free_of w ev (clamped_start f n) t) n :=
              List.take_subset 4 _ hsug
            have hc := rank_mem_candidates _ _ n sug hsug'
            obtain ⟨fr, hfr, hge⟩ := candidates_of_start_ge _ dm sug.1 hc
            obtain ⟨b, hb, hb1, _⟩ := subtract_mem_base _ _ fr hfr
            have hbound := clamp_mem_bounds (merge_intervals w)
              (clamped_start f n) t b hb
            have hcs : n ≤ clamped_start f n := by
              rw [clamped_start_eq_max]
              omega
            omega

theorem suggest_past_clamping_witness :
    clamped_start 5 10 = max 5 10 ∧
    handle_suggest 60 0 0 100 [] [] = .error "toISO must be after fromISO" ∧
    (0 : Int) ≤ ((((0 : Int), (3600 : Int)), (1 : ℚ), ([] : List String))).1.1 :=
  ⟨suggest_past_clamping.1 5 10,
   suggest_past_clamping.2.1 60 0 0 100 [] [] (by omega) (by omega) (by omega),
   suggest_past_clamping.2.2 60 0 3600 0 [((0 : Int), 3600)] []
     ⟨[(((0 : Int), (3600 : Int)), (1 : ℚ), ([] : List String))], none⟩
     (((0 : Int), (3600 : Int)), (1 : ℚ), ([] : List String))
     (by
       have hfree : free_of [((0 : Int), 3600)] [] (clamped_start 0 0) 3600 =
           [((0 : Int), 3600)] := by decide
       have hcand : candidates_of [((0 : Int), 3600)] 60 =
           [((0 : Int), 3600)] := by decide
       have hrank : rank_candidates [((0 : Int), 3600)] [((0 : Int), 3600)] 0 =
           [(((0 : Int), (3600 : Int)), (1 : ℚ), ([] : List String))] := by
         simp [rank_candidates, score_candidate, sortBy, insertBy]
       simp only [handle_suggest]
       rw [if_neg (by decide), if_neg (by decide), hfree,
         if_neg (by decide : ¬([((0 : Int), 3600)] : List (Int × Int)) = []),
         hcand,
         if_neg (by decide : ¬([((0 : Int), 3600)] : List (Int × Int)) = []),
         hrank]
       rfl)
     (List.mem_singleton.2 rfl)⟩

/-- C9.  Empty-result handling: when `handle_suggest` passes validation
and computes an empty free list, or a non-empty free list but no fitting
candidate, it returns a successful result with an empty suggestion list
and an explanatory note, the two notes being distinct; neither case is an
error. -/
theorem suggest_empty_results
    (durationMin fromTs toTs now : Int) (weekly events : List (Int × Int))
    (h1 : 5 ≤ durationMin) (h2 : durationMin ≤ 480)
    (h3 : max fromTs now < toTs) :
    (free_of weekly events (clamped_start fromTs now) toTs = [] →
      handle_suggest durationMin fromTs toTs now weekly events =
        .ok ⟨[], some "No free intervals in the requested range."⟩) ∧
    (free_of weekly events (clamped_start fromTs now) toTs ≠ [] →
      candidates_of (free_of weekly events (clamped_start fromTs now) toTs)
          durationMin = [] →
      handle_suggest durationMin fromTs toTs now weekly events =
        .ok ⟨[], some "No slots of the requested duration."⟩) ∧
    "No free intervals in the requested range." ≠
      "No slots of the requested duration." := by
  have hgt : toTs > clamped_start fromTs now := by
    rw [clamped_start_eq_max]
    omega
  refine ⟨?_, ?_, by decide⟩
  · intro hfree
    simp only [handle_suggest]
    rw [if_neg (not_not_intro ⟨h1, h2⟩), if_neg (not_not_intro hgt),
      if_pos hfree]
  · intro hfree hcand
    simp only [handle_suggest]
    rw [if_neg (not_not_intro ⟨h1, h2⟩), if_neg (not_not_intro hgt),
      if_neg hfree, if_pos hcand]

theorem suggest_empty_results_witness :
    (free_of [] [] (clamped_start 0 0) 100 = [] →
      handle_suggest 60 0 100 0 [] [] =
        .ok ⟨[], some "No free intervals in the requested range."⟩) ∧
    (free_of [] [] (clamped_start 0 0) 100 ≠ [] →
      candidates_of (free_of [] [] (clamped_start 0 0) 100) 60 = [] →
      handle_suggest 60 0 100 0 [] [] =
        .ok ⟨[], some "No slots of the requested duration."⟩) ∧
    "No free intervals in the requested range." ≠
      "No slots of the requested duration." :=
  suggest_empty_results 60 0 100 0 [] [] (by omega) (by omega) (by omega)

end Scheduler
